import Mathlib

/-!
Shallow embedding of the git-stats tool (src/main.rs).

The external collaborators (git2 repository access, tree-to-tree diffing,
mailmap resolution, chrono datetime parsing) are abstracted: each visited
commit is a record carrying exactly the values the library calls in the
loop body of main would return for it, and the chrono parsers are the
fields of a ChronoModel record.  Everything the program itself computes
(the time filter, the identity-exclusion checks, the zero-change skip,
the per-author aggregation, the report sort and the render-time filter,
and the orchestration of parse_time) is translated directly from the
source.  Commit times are modelled as epoch seconds (Int); comparisons of
chrono DateTime values coincide with comparisons of their epoch seconds.
-/

namespace GitStats

/-- The SortBy enum of main.rs. -/
inductive SortBy where
  | name
  | email
  | commits
  | added
  | deleted
deriving DecidableEq

/-- The Order enum of main.rs. -/
inductive Order where
  | asc
  | desc
deriving DecidableEq

/-- The parts of the Cli struct of main.rs that the aggregation logic
reads.  The field named until in the source is called until_ here because
until is a Lean keyword.  The repository path, module label and glob
patterns only parameterize the external collaborators. -/
structure Cli where
  since : Option Int
  until_ : Option Int
  sort_by : SortBy
  order : Order
  no_bot : Bool
  no_root : Bool
  no_ubuntu : Bool
deriving DecidableEq

/-- The clap defaults of main.rs: no time bounds, sort by commits
descending, all three exclusion flags false. -/
def defaultCli : Cli :=
  { since := none
  , until_ := none
  , sort_by := SortBy.commits
  , order := Order.desc
  , no_bot := false
  , no_root := false
  , no_ubuntu := false }

/-- One visited commit, as observed by the loop body of main: the
mailmap-resolved (canonical) author name and email as returned by git2
(none when the signature lacks the component), the commit time in epoch
seconds, and the insertion/deletion counts of the pathspec-restricted
diff against the first parent (or against the empty tree for a root
commit).  These are the results of the external library calls in
lines 114-162 of main.rs. -/
structure Commit where
  name : Option String
  email : Option String
  time : Int
  insertions : Nat
  deletions : Nat
deriving DecidableEq

/-- The User struct of main.rs (the per-author aggregate). -/
structure User where
  email : String
  time : Int
  commits : Nat
  added : Nat
  deleted : Nat
deriving DecidableEq

/-- The time filter of main.rs lines 117-127: skip when time < since or
time > until; an absent bound imposes no restriction. -/
def timeSkip (cli : Cli) (time : Int) : Bool :=
  (match cli.since with
   | some s => decide (time < s)
   | none => false) ||
  (match cli.until_ with
   | some un => decide (time > un)
   | none => false)

/-- Substring containment on character lists, modelling Rust
str::contains with a str pattern. -/
def containsSub (pat : List Char) : List Char → Bool
  | [] => pat.isPrefixOf []
  | c :: rest => pat.isPrefixOf (c :: rest) || containsSub pat rest

/-- Rust author_name.contains(pat). -/
def strContains (s pat : String) : Bool :=
  containsSub pat.data s.data

/-- The identity-exclusion checks of main.rs lines 134-142, translated
exactly as written: each check is guarded by the NEGATION of its flag
(the source reads if !cli.no_bot && author_name.contains("dependabot")
and similarly for root and ubuntu). -/
def identitySkip (cli : Cli) (author_name : String) : Bool :=
  (!cli.no_bot && strContains author_name "dependabot") ||
  (!cli.no_root && author_name == "root") ||
  (!cli.no_ubuntu && author_name == "ubuntu")

/-- The aggregation update of main.rs lines 168-178:
stats.entry(author_name).or_insert(User with email, time and zero
counters) followed by entry.time = time, entry.commits += 1,
entry.added += insertions, entry.deleted += deletions.  Note that the
email field is only set when the entry is created and is never assigned
afterwards, while time is assigned on every update.  The HashMap content
is modelled as an association list with (invariantly) distinct keys; the
order of this list carries no meaning. -/
def updateStats : List (String × User) → String → String → Int → Nat → Nat → List (String × User)
  | [], name, email, t, ins, del =>
      [(name, { email := email, time := t, commits := 1, added := ins, deleted := del })]
  | (k, u) :: rest, name, email, t, ins, del =>
      if k = name then
        (k, { email := u.email, time := t, commits := u.commits + 1
            , added := u.added + ins, deleted := u.deleted + del }) :: rest
      else
        (k, u) :: updateStats rest name email t ins del

/-- The loop body of main.rs lines 112-179 for a single visited commit:
time filter, identity resolution with empty-string fallback
(name().unwrap_or("") and email().unwrap_or("")), identity-exclusion
checks, zero-change skip, then the aggregation update. -/
def stepCommit (cli : Cli) (stats : List (String × User)) (c : Commit) : List (String × User) :=
  if timeSkip cli c.time then stats
  else
    if identitySkip cli (c.name.getD "") then stats
    else if c.insertions == 0 && c.deletions == 0 then stats
    else updateStats stats (c.name.getD "") (c.email.getD "") c.time c.insertions c.deletions

/-- The whole revwalk loop of main.rs: fold the loop body over the
commits in traversal order, starting from the empty map. -/
def runStats (cli : Cli) (cs : List Commit) : List (String × User) :=
  cs.foldl (stepCommit cli) []

/-- A commit qualifies when the loop body reaches the aggregation update
for it: it passes the time filter, the identity-exclusion checks and the
zero-change skip. -/
def qualifies (cli : Cli) (c : Commit) : Bool :=
  !timeSkip cli c.time && !identitySkip cli (c.name.getD "") &&
    !(c.insertions == 0 && c.deletions == 0)

/-- A commit qualifies and its canonical author name (with the
empty-string fallback) is the given one. -/
def qualName (cli : Cli) (name : String) (c : Commit) : Bool :=
  qualifies cli c && (c.name.getD "" == name)

/-- Number of qualifying commits with the given canonical author name. -/
def countQual (cli : Cli) (name : String) (cs : List Commit) : Nat :=
  (cs.filter (qualName cli name)).length

/-- Sum of the insertion counts of the qualifying commits with the given
canonical author name. -/
def addedSum (cli : Cli) (name : String) (cs : List Commit) : Nat :=
  ((cs.filter (qualName cli name)).map Commit.insertions).sum

/-- Sum of the deletion counts of the qualifying commits with the given
canonical author name. -/
def deletedSum (cli : Cli) (name : String) (cs : List Commit) : Nat :=
  ((cs.filter (qualName cli name)).map Commit.deletions).sum

/-- HashMap lookup on the association-list model. -/
def lookupStats : List (String × User) → String → Option User
  | [], _ => none
  | (k, u) :: rest, name => if k = name then some u else lookupStats rest name

/-- The commits counter of the entry for the given author name, zero when
no entry exists. -/
def commitsOf (stats : List (String × User)) (name : String) : Nat :=
  match lookupStats stats name with
  | some u => u.commits
  | none => 0

/-- The added counter of the entry for the given author name, zero when
no entry exists. -/
def addedOf (stats : List (String × User)) (name : String) : Nat :=
  match lookupStats stats name with
  | some u => u.added
  | none => 0

/-- The deleted counter of the entry for the given author name, zero
when no entry exists. -/
def deletedOf (stats : List (String × User)) (name : String) : Nat :=
  match lookupStats stats name with
  | some u => u.deleted
  | none => 0

/-- Three-way comparison on a linear order, modelling Rust Ord::cmp for
usize and String (on UTF-8 strings, Rust's byte-lexicographic order
coincides with the codepoint-lexicographic order used here). -/
def cmpOf {α : Type} [LinearOrder α] (a b : α) : Ordering :=
  if a < b then Ordering.lt else if a = b then Ordering.eq else Ordering.gt

/-- The field comparison selected by the match on cli.sort_by in
main.rs lines 183-189. -/
def cmpKey (sb : SortBy) (a b : String × User) : Ordering :=
  match sb with
  | SortBy.name => cmpOf a.1 b.1
  | SortBy.email => cmpOf a.2.email b.2.email
  | SortBy.commits => cmpOf a.2.commits b.2.commits
  | SortBy.added => cmpOf a.2.added b.2.added
  | SortBy.deleted => cmpOf a.2.deleted b.2.deleted

/-- The match on cli.order in main.rs lines 190-193: ascending keeps the
comparison, descending reverses it (Ordering::reverse is swap). -/
def applyOrd (o : Order) (c : Ordering) : Ordering :=
  match o with
  | Order.asc => c
  | Order.desc => c.swap

/-- The whole comparator closure passed to sort_by in main.rs
lines 182-194. -/
def cmpRow (cli : Cli) (a b : String × User) : Ordering :=
  applyOrd cli.order (cmpKey cli.sort_by a b)

/-- The not-greater relation induced by the comparator: Vec::sort_by
sorts into an order where consecutive elements compare not-greater. -/
def rowLe (cli : Cli) (a b : String × User) : Prop :=
  cmpRow cli a b ≠ Ordering.gt

instance (cli : Cli) : DecidableRel (rowLe cli) :=
  fun a b => inferInstanceAs (Decidable (cmpRow cli a b ≠ Ordering.gt))

/-- The report sort of main.rs lines 181-194.  Vec::sort_by is a stable
sort, and a stable sort is uniquely determined by the comparator and the
input order, so it is modelled by a stable insertion sort.  The input
list order models the HashMap iteration order of the stats map. -/
def sortRows (cli : Cli) (rows : List (String × User)) : List (String × User) :=
  rows.insertionSort (rowLe cli)

/-- The render-time filter of main.rs lines 207-209: rows whose added
and deleted counters are both zero are skipped (the loop continues
without printing). -/
def renderRows (rows : List (String × User)) : List (String × User) :=
  rows.filter (fun p => !(p.2.added == 0 && p.2.deleted == 0))

/-- Abstraction of the chrono parsing collaborators called by parse_time
in main.rs: NaiveDate::parse_from_str with format "%Y-%m-%d" (a parsed
date as a year/month/day triple), the composition
and_hms_opt(0,0,0) / and_local_timezone(Local) / earliest() turning a
date into the instant of local midnight when it exists,
DateTime::parse_from_str with format "%Y-%m-%d %H:%M:%S", and
DateTime::parse_from_rfc3339, the last two converted to a local instant
by with_timezone.  Instants are epoch seconds. -/
structure ChronoModel where
  parse_ymd : String → Option (Int × Int × Int)
  midnight_local : Int × Int × Int → Option Int
  parse_datetime : String → Option Int
  parse_rfc3339 : String → Option Int

/-- The parse_time function of main.rs lines 69-91: try the date-only
format, then the date-time format, then RFC 3339, returning the first
success; when the date-only parse succeeds but local midnight does not
exist the result is the error "invalid time: " plus the input; when all
three parses fail the result is the error "Invalid time format". -/
def parse_time (M : ChronoModel) (s : String) : Except String Int :=
  match M.parse_ymd s with
  | some d =>
    match M.midnight_local d with
    | some t => Except.ok t
    | none => Except.error ("invalid time: " ++ s)
  | none =>
    match M.parse_datetime s with
    | some t => Except.ok t
    | none =>
      match M.parse_rfc3339 s with
      | some t => Except.ok t
      | none => Except.error "Invalid time format"

/-- Parsing of an optional time argument: clap applies the value parser
parse_time to the argument when it is present. -/
def parseOptTime (M : ChronoModel) : Option String → Except String (Option Int)
  | none => Except.ok none
  | some s => (parse_time M s).map some

/-- The orchestration of main.rs: clap parses the since and until
arguments (running parse_time on each present one) before the repository
is opened; a parse failure therefore aborts the run with that error no
matter what the repository holds (repo is none when the repository
cannot be opened, some cs when traversal yields the commits cs).  On
success the aggregation, the sort and the render-time filter run. -/
def runMain (M : ChronoModel) (base : Cli) (sinceArg untilArg : Option String)
    (repo : Option (List Commit)) : Except String (List (String × User)) :=
  match parseOptTime M sinceArg with
  | Except.error e => Except.error e
  | Except.ok s =>
    match parseOptTime M untilArg with
    | Except.error e => Except.error e
    | Except.ok u =>
      match repo with
      | none => Except.error "cannot open repository"
      | some cs =>
        let cli : Cli := { base with since := s, until_ := u }
        Except.ok (renderRows (sortRows cli (runStats cli cs)))

/-- A miniature concrete instance of the chrono collaborators, used to
evaluate parse_time and runMain on closed inputs: it recognises one
fixed string per format and fails on everything else. -/
def chronoTest : ChronoModel :=
  { parse_ymd := fun s => if s = "2024-01-02" then some (2024, 1, 2) else none
  , midnight_local := fun _ => some 1704124800
  , parse_datetime := fun s => if s = "2024-01-02 03:04:05" then some 1704135845 else none
  , parse_rfc3339 := fun s => if s = "2024-01-02T03:04:05Z" then some 1704164645 else none }

/-- The order on the selected sort field, used to state properties of
the comparator: string order for name and email, numeric order for the
counters. -/
def keyLe (sb : SortBy) (a b : String × User) : Prop :=
  match sb with
  | SortBy.name => a.1 ≤ b.1
  | SortBy.email => a.2.email ≤ b.2.email
  | SortBy.commits => a.2.commits ≤ b.2.commits
  | SortBy.added => a.2.added ≤ b.2.added
  | SortBy.deleted => a.2.deleted ≤ b.2.deleted

instance : Std.Antisymm (fun (a b : Int) => a ≤ b) :=
  ⟨fun h1 h2 => le_antisymm h1 h2⟩

/-- Concrete commit: author a, email e1, 2 insertions. -/
def cIn1 : Commit :=
  { name := some "a", email := some "e1", time := 1, insertions := 2, deletions := 0 }

/-- Concrete commit: author a again, a different email e2. -/
def cIn2 : Commit :=
  { name := some "a", email := some "e2", time := 2, insertions := 3, deletions := 1 }

/-- The aggregate produced by cIn1 alone. -/
def u0 : User := { email := "e1", time := 1, commits := 1, added := 2, deleted := 0 }

/-- Concrete commit authored by dependabot. -/
def botC : Commit :=
  { name := some "dependabot[bot]", email := some "d@x", time := 0, insertions := 1, deletions := 0 }

/-- Concrete commit authored by root. -/
def rootC : Commit :=
  { name := some "root", email := some "r@x", time := 0, insertions := 1, deletions := 0 }

/-- Concrete commit authored by ubuntu. -/
def ubuC : Commit :=
  { name := some "ubuntu", email := some "u@x", time := 0, insertions := 1, deletions := 0 }

/-- Concrete commit with a zero-change diff. -/
def zcCommit : Commit :=
  { name := some "a", email := some "e", time := 0, insertions := 0, deletions := 0 }

/-- Concrete commit whose canonical signature has no name. -/
def cNoName : Commit :=
  { name := none, email := some "e", time := 0, insertions := 1, deletions := 0 }

/-- Concrete commit at time 5 for the round-trip witness. -/
def c6 : Commit :=
  { name := some "a", email := some "e", time := 5, insertions := 1, deletions := 0 }

/-- Concrete commit at time 9 for the boundary witness. -/
def c4 : Commit :=
  { name := some "a", email := some "e", time := 9, insertions := 1, deletions := 0 }

/-- Concrete configuration with both time bounds set. -/
def cli4 : Cli := { defaultCli with since := some 10, until_ := some 20 }

/-- Two report rows that tie on the default sort field (equal commits). -/
def rowA : String × User :=
  ("a", { email := "ea", time := 1, commits := 3, added := 1, deleted := 1 })

/-- Second row of the tie. -/
def rowB : String × User :=
  ("b", { email := "eb", time := 2, commits := 3, added := 2, deleted := 2 })

/-- Two report rows with distinct commit counts (no tie). -/
def rowC : String × User :=
  ("c", { email := "ec", time := 0, commits := 1, added := 1, deleted := 0 })

/-- Second row of the tie-free pair. -/
def rowD : String × User :=
  ("d", { email := "ed", time := 0, commits := 2, added := 2, deleted := 0 })

/-- Looking up the updated author after an aggregation update: a fresh
entry carries the record's email, an existing entry keeps its old email;
in both cases time is the record's time and the counters grow. -/
theorem lookupStats_updateStats_self (stats : List (String × User)) (name email : String)
    (t : Int) (ins del : Nat) :
    lookupStats (updateStats stats name email t ins del) name =
      some (match lookupStats stats name with
            | none => { email := email, time := t, commits := 1, added := ins, deleted := del }
            | some u => { email := u.email, time := t, commits := u.commits + 1
                        , added := u.added + ins, deleted := u.deleted + del }) := by
  induction stats with
  | nil => simp [updateStats, lookupStats]
  | cons p rest ih =>
    obtain ⟨k, u⟩ := p
    by_cases hk : k = name
    · subst hk
      simp [updateStats, lookupStats]
    · simp [updateStats, lookupStats, hk, ih]

/-- An aggregation update for one author leaves every other author's
entry untouched. -/
theorem lookupStats_updateStats_ne (stats : List (String × User)) (m name email : String)
    (t : Int) (ins del : Nat) (h : m ≠ name) :
    lookupStats (updateStats stats name email t ins del) m = lookupStats stats m := by
  induction stats with
  | nil => simp [updateStats, lookupStats, Ne.symm h]
  | cons p rest ih =>
    obtain ⟨k, u⟩ := p
    by_cases hk : k = name
    · subst hk
      simp [updateStats, lookupStats, Ne.symm h, ih]
    · simp [updateStats, lookupStats, hk, ih]

/-- A qualifying commit reaches the aggregation update. -/
theorem stepCommit_of_qualifies (cli : Cli) (stats : List (String × User)) (c : Commit)
    (h : qualifies cli c = true) :
    stepCommit cli stats c =
      updateStats stats (c.name.getD "") (c.email.getD "") c.time c.insertions c.deletions := by
  unfold qualifies at h
  simp only [Bool.and_eq_true, Bool.not_eq_true'] at h
  obtain ⟨⟨h1, h2⟩, h3⟩ := h
  unfold stepCommit
  simp [h1, h2, h3]

/-- A non-qualifying commit leaves the stats map unchanged. -/
theorem stepCommit_of_not_qualifies (cli : Cli) (stats : List (String × User)) (c : Commit)
    (h : qualifies cli c = false) :
    stepCommit cli stats c = stats := by
  unfold stepCommit
  by_cases ht : timeSkip cli c.time = true
  · simp [ht]
  · have ht' : timeSkip cli c.time = false := by simpa using ht
    by_cases hi : identitySkip cli (c.name.getD "") = true
    · simp [ht', hi]
    · have hi' : identitySkip cli (c.name.getD "") = false := by simpa using hi
      have hz : (c.insertions == 0 && c.deletions == 0) = true := by
        unfold qualifies at h
        simp only [ht', hi', Bool.not_false, Bool.true_and, Bool.and_self,
          Bool.not_eq_false'] at h
        exact h
      simp [ht', hi', hz]

/-- Effect of one loop iteration on the three counters of one author. -/
theorem totalsOf_stepCommit (cli : Cli) (stats : List (String × User)) (c : Commit)
    (name : String) :
    commitsOf (stepCommit cli stats c) name
        = commitsOf stats name + (if qualName cli name c then 1 else 0) ∧
    addedOf (stepCommit cli stats c) name
        = addedOf stats name + (if qualName cli name c then c.insertions else 0) ∧
    deletedOf (stepCommit cli stats c) name
        = deletedOf stats name + (if qualName cli name c then c.deletions else 0) := by
  by_cases hq : qualifies cli c = true
  · rw [stepCommit_of_qualifies cli stats c hq]
    by_cases hn : c.name.getD "" = name
    · have hqn : qualName cli name c = true := by simp [qualName, hq, hn]
      unfold commitsOf addedOf deletedOf
      rw [hn, lookupStats_updateStats_self]
      cases hls : lookupStats stats name <;> simp [hqn, hls]
    · have hqn : qualName cli name c = false := by simp [qualName, hn]
      unfold commitsOf addedOf deletedOf
      rw [lookupStats_updateStats_ne stats name _ _ _ _ _ (Ne.symm hn)]
      simp [hqn]
  · have hq' : qualifies cli c = false := by simpa using hq
    have hqn : qualName cli name c = false := by simp [qualName, hq']
    rw [stepCommit_of_not_qualifies cli stats c hq']
    simp [hqn]

/-- Effect of the whole fold on the three counters of one author. -/
theorem totalsOf_foldl (cli : Cli) (name : String) :
    ∀ (cs : List Commit) (stats : List (String × User)),
      commitsOf (List.foldl (stepCommit cli) stats cs) name
          = commitsOf stats name + countQual cli name cs ∧
      addedOf (List.foldl (stepCommit cli) stats cs) name
          = addedOf stats name + addedSum cli name cs ∧
      deletedOf (List.foldl (stepCommit cli) stats cs) name
          = deletedOf stats name + deletedSum cli name cs := by
  intro cs
  induction cs with
  | nil => intro stats; simp [countQual, addedSum, deletedSum]
  | cons c rest ih =>
    intro stats
    have hstep := totalsOf_stepCommit cli stats c name
    have hrest := ih (stepCommit cli stats c)
    refine ⟨?_, ?_, ?_⟩
    · rw [List.foldl_cons, hrest.1, hstep.1]
      unfold countQual
      rw [List.filter_cons]
      by_cases h : qualName cli name c = true <;> simp [h] <;> omega
    · rw [List.foldl_cons, hrest.2.1, hstep.2.1]
      unfold addedSum
      rw [List.filter_cons]
      by_cases h : qualName cli name c = true <;> simp [h] <;> omega
    · rw [List.foldl_cons, hrest.2.2, hstep.2.2]
      unfold deletedSum
      rw [List.filter_cons]
      by_cases h : qualName cli name c = true <;> simp [h] <;> omega

/-- An aggregation update with at least one changed line keeps every
entry at positive commits and positive added+deleted. -/
theorem inv_updateStats (name email : String) (t : Int)
    (ins del : Nat) (hnz : 1 ≤ ins + del) :
    ∀ stats : List (String × User),
      (∀ p ∈ stats, 1 ≤ p.2.commits ∧ 1 ≤ p.2.added + p.2.deleted) →
      ∀ p ∈ updateStats stats name email t ins del,
        1 ≤ p.2.commits ∧ 1 ≤ p.2.added + p.2.deleted := by
  intro stats
  induction stats with
  | nil =>
    intro _ p hp
    simp only [updateStats, List.mem_singleton] at hp
    subst hp
    exact ⟨le_refl 1, hnz⟩
  | cons q rest ih =>
    obtain ⟨k, u⟩ := q
    intro hstats p hp
    by_cases hk : k = name
    · subst hk
      simp only [updateStats, eq_self_iff_true, if_true, List.mem_cons] at hp
      rcases hp with hp | hp
      · subst hp
        refine ⟨Nat.le_add_left 1 u.commits, ?_⟩
        show 1 ≤ (u.added + ins) + (u.deleted + del)
        omega
      · exact hstats p (List.mem_cons_of_mem _ hp)
    · simp only [updateStats, if_neg hk, List.mem_cons] at hp
      rcases hp with hp | hp
      · subst hp
        exact hstats (k, u) (List.mem_cons_self _ _)
      · exact ih (fun q hq => hstats q (List.mem_cons_of_mem _ hq)) p hp

/-- The whole fold keeps every entry at positive commits and positive
added+deleted. -/
theorem inv_foldl (cli : Cli) :
    ∀ (cs : List Commit) (stats : List (String × User)),
      (∀ p ∈ stats, 1 ≤ p.2.commits ∧ 1 ≤ p.2.added + p.2.deleted) →
      ∀ p ∈ List.foldl (stepCommit cli) stats cs,
        1 ≤ p.2.commits ∧ 1 ≤ p.2.added + p.2.deleted := by
  intro cs
  induction cs with
  | nil => intro stats h; simpa using h
  | cons c rest ih =>
    intro stats h
    rw [List.foldl_cons]
    apply ih
    by_cases hq : qualifies cli c = true
    · rw [stepCommit_of_qualifies cli stats c hq]
      apply inv_updateStats
      · unfold qualifies at hq
        simp only [Bool.and_eq_true, Bool.not_eq_true'] at hq
        have hz := hq.2
        simp only [Bool.and_eq_false_iff, beq_eq_false_iff_ne, Ne] at hz
        omega
      · exact h
    · rw [stepCommit_of_not_qualifies cli stats c (by simpa using hq)]
      exact h

/-- The three-way comparison returns lt exactly on strictly smaller
inputs. -/
theorem cmpOf_eq_lt {α : Type} [LinearOrder α] (a b : α) :
    cmpOf a b = Ordering.lt ↔ a < b := by
  unfold cmpOf
  split_ifs with h1 h2
  · simp [h1]
  · simp [h1]
  · simp [h1]

/-- The three-way comparison returns gt exactly on strictly greater
inputs. -/
theorem cmpOf_eq_gt {α : Type} [LinearOrder α] (a b : α) :
    cmpOf a b = Ordering.gt ↔ b < a := by
  unfold cmpOf
  split_ifs with h1 h2
  · simp [lt_asymm h1]
  · subst h2
    simp
  · have hba : b < a := lt_of_le_of_ne (le_of_not_lt h1) (fun hba => h2 hba.symm)
    simp [hba]

/-- Swap sends an ordering to gt exactly when it was lt. -/
theorem ordering_swap_eq_gt (o : Ordering) : o.swap = Ordering.gt ↔ o = Ordering.lt := by
  cases o <;> simp [Ordering.swap]

/-- Not-gt on the field comparison is the field order. -/
theorem cmpKey_ne_gt (sb : SortBy) (a b : String × User) :
    cmpKey sb a b ≠ Ordering.gt ↔ keyLe sb a b := by
  cases sb <;> simp [cmpKey, keyLe, Ne, cmpOf_eq_gt, not_lt]

/-- Not-lt on the field comparison is the reversed field order. -/
theorem cmpKey_ne_lt (sb : SortBy) (a b : String × User) :
    cmpKey sb a b ≠ Ordering.lt ↔ keyLe sb b a := by
  cases sb <;> simp [cmpKey, keyLe, Ne, cmpOf_eq_lt, not_lt]

/-- The comparator's not-gt relation, in terms of the field order: the
field order itself for ascending runs, its reverse for descending
runs. -/
theorem rowLe_iff (cli : Cli) (a b : String × User) :
    rowLe cli a b ↔ (match cli.order with
                     | Order.asc => keyLe cli.sort_by a b
                     | Order.desc => keyLe cli.sort_by b a) := by
  obtain ⟨s, un, sb, o, nb, nr, nu⟩ := cli
  cases o
  · exact cmpKey_ne_gt sb a b
  · show applyOrd Order.desc (cmpKey sb a b) ≠ Ordering.gt ↔ keyLe sb b a
    unfold applyOrd
    rw [Ne, ordering_swap_eq_gt]
    exact cmpKey_ne_lt sb a b

/-- The field order is transitive. -/
theorem keyLe_trans (sb : SortBy) (a b c : String × User) :
    keyLe sb a b → keyLe sb b c → keyLe sb a c := by
  cases sb <;> exact fun h1 h2 => le_trans h1 h2

/-- The field order is total. -/
theorem keyLe_total (sb : SortBy) (a b : String × User) :
    keyLe sb a b ∨ keyLe sb b a := by
  cases sb <;> exact le_total _ _

/-- The comparator's not-gt relation is transitive. -/
theorem rowLe_trans (cli : Cli) :
    ∀ a b c : String × User, rowLe cli a b → rowLe cli b c → rowLe cli a c := by
  intro a b c h1 h2
  rw [rowLe_iff] at h1 h2 ⊢
  obtain ⟨s, un, sb, o, nb, nr, nu⟩ := cli
  cases o
  · exact keyLe_trans sb a b c h1 h2
  · exact keyLe_trans sb c b a h2 h1

/-- The comparator's not-gt relation is total. -/
theorem rowLe_total (cli : Cli) :
    ∀ a b : String × User, rowLe cli a b ∨ rowLe cli b a := by
  intro a b
  rw [rowLe_iff, rowLe_iff]
  obtain ⟨s, un, sb, o, nb, nr, nu⟩ := cli
  cases o
  · exact keyLe_total sb a b
  · exact keyLe_total sb b a

/-- Two sorted lists that are permutations of each other coincide when
the relation is antisymmetric on the elements present. -/
theorem sorted_perm_eq {α : Type} (r : α → α → Prop) :
    ∀ l₁ l₂ : List α, l₁.Perm l₂ →
      (∀ a ∈ l₁, ∀ b ∈ l₁, r a b → r b a → a = b) →
      l₁.Sorted r → l₂.Sorted r → l₁ = l₂ := by
  intro l₁
  induction l₁ with
  | nil =>
    intro l₂ hp _ _ _
    exact (hp.symm.eq_nil).symm
  | cons a t ih =>
    intro l₂ hp anti h₁ h₂
    cases l₂ with
    | nil => exact absurd hp.eq_nil (List.cons_ne_nil a t)
    | cons b t₂ =>
      have hbmem : b ∈ a :: t := hp.mem_iff.mpr (List.mem_cons_self b t₂)
      have hamem : a ∈ b :: t₂ := hp.mem_iff.mp (List.mem_cons_self a t)
      have hab : a = b := by
        rcases List.mem_cons.mp hbmem with hb | hb
        · exact hb.symm
        · rcases List.mem_cons.mp hamem with ha | ha
          · exact ha
          · have rab : r a b := (List.sorted_cons.mp h₁).1 b hb
            have rba : r b a := (List.sorted_cons.mp h₂).1 a ha
            exact anti a (List.mem_cons_self a t) b hbmem rab rba
      subst hab
      have hp2 : t.Perm t₂ := hp.cons_inv
      have anti2 : ∀ x ∈ t, ∀ y ∈ t, r x y → r y x → x = y := fun x hx y hy =>
        anti x (List.mem_cons_of_mem a hx) y (List.mem_cons_of_mem a hy)
      rw [ih t₂ hp2 anti2 (List.sorted_cons.mp h₁).2 (List.sorted_cons.mp h₂).2]

/-- The report sort produces a list sorted by the comparator's not-gt
relation. -/
theorem sortRows_sorted (cli : Cli) (rows : List (String × User)) :
    (sortRows cli rows).Sorted (rowLe cli) := by
  haveI : IsTotal (String × User) (rowLe cli) := ⟨rowLe_total cli⟩
  haveI : IsTrans (String × User) (rowLe cli) := ⟨rowLe_trans cli⟩
  exact List.sorted_insertionSort (rowLe cli) rows

/-- The report sort permutes its input. -/
theorem sortRows_perm (cli : Cli) (rows : List (String × User)) :
    (sortRows cli rows).Perm rows :=
  List.perm_insertionSort (rowLe cli) rows

/-- C1 counterexample: two qualifying commits by the same canonical
author a, the first with email e1, the second with email e2.  After the
traversal the entry's email is still e1, the first-seen value, not the
last record's e2 — so the aggregation step does NOT overwrite the email
field of an existing entry (it does overwrite the time field, which
ends at the second commit's time 2). -/
theorem email_overwrite_counterexample :
    cIn2.email = some "e2" ∧
    lookupStats (runStats defaultCli [cIn1, cIn2]) "a" =
      some { email := "e1", time := 2, commits := 2, added := 5, deleted := 1 } ∧
    ("e1" : String) ≠ "e2" := by
  refine ⟨rfl, by decide, by decide⟩

/-- C1 (amended): for every qualifying commit record the aggregation
step overwrites lastCommitTime with the record's time and increments the
counters; the email field is written only when the entry is created
(first-write-wins) and is left unchanged when the entry already
exists. -/
theorem aggregator_update_time_email (stats : List (String × User)) (name email : String)
    (t : Int) (ins del : Nat) :
    (∀ u, lookupStats stats name = some u →
        lookupStats (updateStats stats name email t ins del) name =
          some { email := u.email, time := t, commits := u.commits + 1
               , added := u.added + ins, deleted := u.deleted + del }) ∧
    (lookupStats stats name = none →
        lookupStats (updateStats stats name email t ins del) name =
          some { email := email, time := t, commits := 1, added := ins, deleted := del }) := by
  refine ⟨fun u hu => ?_, fun hn => ?_⟩
  · rw [lookupStats_updateStats_self, hu]
  · rw [lookupStats_updateStats_self, hn]

/-- C1 witness: updating the existing entry for author a keeps its email
e1, while time, commits, added and deleted take the new values. -/
theorem aggregator_update_time_email_witness :
    lookupStats (updateStats [("a", u0)] "a" "e2" 2 3 1) "a" =
      some { email := "e1", time := 2, commits := 2, added := 5, deleted := 1 } :=
  (aggregator_update_time_email [("a", u0)] "a" "e2" 2 3 1).1 u0 rfl

/-- C2: evaluation of the identity-exclusion logic as written in the
code.  With all flags at their default false, commits authored by
dependabot, root and ubuntu are SKIPPED (they produce no entry), and
setting the corresponding flag to true KEEPS them — the opposite
polarity of the claim and of the flags' own doc comments (the guard in
the source is the negation of the flag). -/
theorem exclusion_flag_polarity :
    runStats defaultCli [botC] = [] ∧
    runStats defaultCli [rootC] = [] ∧
    runStats defaultCli [ubuC] = [] ∧
    runStats { defaultCli with no_bot := true } [botC] =
      [("dependabot[bot]", { email := "d@x", time := 0, commits := 1, added := 1, deleted := 0 })] ∧
    runStats { defaultCli with no_root := true } [rootC] =
      [("root", { email := "r@x", time := 0, commits := 1, added := 1, deleted := 0 })] ∧
    runStats { defaultCli with no_ubuntu := true } [ubuC] =
      [("ubuntu", { email := "u@x", time := 0, commits := 1, added := 1, deleted := 0 })] := by
  refine ⟨by decide, by decide, by decide, by decide, by decide, by decide⟩

/-- C3 counterexample: rows a and b tie on the default sort field
(commits, both 3).  The two lists are permutations of each other — the
same HashMap content under two iteration orders — yet the stable sort
returns them in their respective input orders, so the output order is
not determined by the map content and the flags alone. -/
theorem sort_tie_counterexample :
    List.Perm [rowA, rowB] [rowB, rowA] ∧
    sortRows defaultCli [rowA, rowB] = [rowA, rowB] ∧
    sortRows defaultCli [rowB, rowA] = [rowB, rowA] ∧
    sortRows defaultCli [rowA, rowB] ≠ sortRows defaultCli [rowB, rowA] := by
  refine ⟨List.Perm.swap rowB rowA [], by decide, by decide, by decide⟩

/-- C3 (amended): the output order is a function of the map content and
the flags whenever no two rows of the map tie under the comparator
(ties between distinct rows are broken by the HashMap iteration order,
which is not determined by the input): for any two iteration orders of
the same entries, the sorted outputs coincide. -/
theorem sort_deterministic_without_ties (cli : Cli) (rows₁ rows₂ : List (String × User))
    (hperm : rows₁.Perm rows₂)
    (hties : ∀ a ∈ rows₁, ∀ b ∈ rows₁, rowLe cli a b → rowLe cli b a → a = b) :
    sortRows cli rows₁ = sortRows cli rows₂ := by
  apply sorted_perm_eq (rowLe cli) (sortRows cli rows₁) (sortRows cli rows₂)
  · exact (sortRows_perm cli rows₁).trans (hperm.trans (sortRows_perm cli rows₂).symm)
  · intro a ha b hb
    exact hties a ((sortRows_perm cli rows₁).mem_iff.mp ha)
      b ((sortRows_perm cli rows₁).mem_iff.mp hb)
  · exact sortRows_sorted cli rows₁
  · exact sortRows_sorted cli rows₂

/-- C3 witness: rows c and d have distinct commit counts, so both
iteration orders sort to the same output. -/
theorem sort_deterministic_without_ties_witness :
    sortRows defaultCli [rowC, rowD] = sortRows defaultCli [rowD, rowC] :=
  sort_deterministic_without_ties defaultCli [rowC, rowD] [rowD, rowC]
    (List.Perm.swap rowD rowC []) (by decide)

/-- C4: the time filter skips a commit exactly when its timestamp is
strictly below the since bound or strictly above the until bound, an
absent bound imposing no restriction (so a commit exactly at until is
kept, one a second before since is dropped), and a skipped commit
leaves the stats map untouched. -/
theorem time_filter_exact (cli : Cli) (stats : List (String × User)) (c : Commit) :
    (timeSkip cli c.time = true ↔
      (∃ s, cli.since = some s ∧ c.time < s) ∨
      (∃ u, cli.until_ = some u ∧ c.time > u)) ∧
    (timeSkip cli c.time = true → stepCommit cli stats c = stats) := by
  constructor
  · unfold timeSkip
    cases hs : cli.since <;> cases hu : cli.until_ <;> simp
  · intro h
    unfold stepCommit
    simp [h]

/-- C4 witness: with since 10 and until 20, a commit at time 9 is
filtered out. -/
theorem time_filter_exact_witness :
    stepCommit cli4 [] c4 = [] :=
  (time_filter_exact cli4 [] c4).2 (by decide)

/-- C5 counterexample: a commit with a zero-change diff passes the time
filter and the identity-exclusion filter under default flags, so the
claim counts it, but the aggregated commit count of its author is 0 —
the zero-change skip removes it before aggregation. -/
theorem count_time_identity_only_counterexample :
    commitsOf (runStats defaultCli [zcCommit]) "a" = 0 ∧
    (([zcCommit] : List Commit).filter
        (fun c => !timeSkip defaultCli c.time &&
          !identitySkip defaultCli (c.name.getD "") &&
          (c.name.getD "" == "a"))).length = 1 := by
  refine ⟨by decide, by decide⟩

/-- C5 (amended): for every canonical author name, after the full
traversal the aggregated commits count equals the number of visited
commits with that name that pass the time filter, the
identity-exclusion filter AND the zero-change skip, and the added and
deleted totals equal the sums of the per-commit insertion and deletion
counts over those same commits. -/
theorem aggregate_totals (cli : Cli) (cs : List Commit) (name : String) :
    commitsOf (runStats cli cs) name = countQual cli name cs ∧
    addedOf (runStats cli cs) name = addedSum cli name cs ∧
    deletedOf (runStats cli cs) name = deletedSum cli name cs := by
  have h := totalsOf_foldl cli name cs []
  unfold runStats
  simpa [commitsOf, addedOf, deletedOf, lookupStats] using h

/-- C7: a commit whose pathspec-restricted diff has zero insertions and
zero deletions contributes nothing: the loop body returns the stats map
unchanged, so no counter moves and no entry is created. -/
theorem zero_change_skipped (cli : Cli) (stats : List (String × User)) (c : Commit)
    (hins : c.insertions = 0) (hdel : c.deletions = 0) :
    stepCommit cli stats c = stats := by
  unfold stepCommit
  simp [hins, hdel]

/-- C7 witness: the zero-change commit leaves the empty map empty. -/
theorem zero_change_skipped_witness :
    stepCommit defaultCli [] zcCommit = [] :=
  zero_change_skipped defaultCli [] zcCommit rfl rfl

/-- C6: with since set to the earliest qualifying commit time and until
set to the latest, the aggregation result is identical to a run with no
time bounds: every qualifying commit lies inside the bounds, and
non-qualifying commits stay excluded either way. -/
theorem time_bounds_roundtrip (cli : Cli) (cs : List Commit) (lo hi : Int)
    (hs : cli.since = none) (hu : cli.until_ = none)
    (hlo : ((cs.filter (qualifies cli)).map Commit.time).min? = some lo)
    (hhi : ((cs.filter (qualifies cli)).map Commit.time).max? = some hi) :
    runStats { cli with since := some lo, until_ := some hi } cs = runStats cli cs := by
  have hmin := (List.min?_eq_some_iff (fun a => le_refl a) (fun a b => min_choice a b)
      (fun a b c => le_min_iff)).mp hlo
  have hmax := (List.max?_eq_some_iff (fun a => le_refl a) (fun a b => max_choice a b)
      (fun a b c => max_le_iff)).mp hhi
  have hbound : ∀ c ∈ cs, qualifies cli c = true → lo ≤ c.time ∧ c.time ≤ hi := by
    intro c hc hq
    have hmem : c.time ∈ (cs.filter (qualifies cli)).map Commit.time :=
      List.mem_map_of_mem Commit.time (List.mem_filter.mpr ⟨hc, hq⟩)
    exact ⟨hmin.2 c.time hmem, hmax.2 c.time hmem⟩
  unfold runStats
  apply List.foldl_ext
  intro stats c hc
  have hid : identitySkip { cli with since := some lo, until_ := some hi } (c.name.getD "")
      = identitySkip cli (c.name.getD "") := rfl
  by_cases hq : qualifies cli c = true
  · obtain ⟨h1, h2⟩ := hbound c hc hq
    have hts : timeSkip { cli with since := some lo, until_ := some hi } c.time = false := by
      simp only [timeSkip, Bool.or_eq_false_iff, decide_eq_false_iff_not, not_lt]
      exact ⟨h1, h2⟩
    have hq2 : qualifies { cli with since := some lo, until_ := some hi } c = true := by
      unfold qualifies at hq ⊢
      rw [hts, hid]
      simp only [Bool.and_eq_true] at hq
      simp [hq.1.2, hq.2]
    rw [stepCommit_of_qualifies _ _ _ hq2, stepCommit_of_qualifies _ _ _ hq]
  · have hq' : qualifies cli c = false := by simpa using hq
    rw [stepCommit_of_not_qualifies _ _ _ hq']
    apply stepCommit_of_not_qualifies
    have hts0 : timeSkip cli c.time = false := by
      simp [timeSkip, hs, hu]
    unfold qualifies at hq' ⊢
    rw [hts0] at hq'
    rw [hid]
    simp only [Bool.not_false, Bool.true_and] at hq'
    simp only [Bool.and_eq_false_iff] at hq' ⊢
    rcases hq' with h | h
    · exact Or.inl (Or.inr h)
    · exact Or.inr h

/-- C6 witness: one qualifying commit at time 5; bounds 5 and 5
reproduce the unbounded run. -/
theorem time_bounds_roundtrip_witness :
    runStats { defaultCli with since := some 5, until_ := some 5 } [c6]
      = runStats defaultCli [c6] :=
  time_bounds_roundtrip defaultCli [c6] 5 5 rfl rfl (by decide) (by decide)

/-- C8: parse_time tries the three formats in order — date-only
(interpreted as local midnight), date-time, then RFC 3339 — the first
successful parse wins, and when none succeeds the result is the error
"Invalid time format"; since clap runs the value parser before the
repository is opened, that failure aborts the run with this error no
matter what the repository holds. -/
theorem parse_time_format_order (M : ChronoModel) (s : String) :
    (∀ d t, M.parse_ymd s = some d → M.midnight_local d = some t →
        parse_time M s = Except.ok t) ∧
    (∀ t, M.parse_ymd s = none → M.parse_datetime s = some t →
        parse_time M s = Except.ok t) ∧
    (∀ t, M.parse_ymd s = none → M.parse_datetime s = none → M.parse_rfc3339 s = some t →
        parse_time M s = Except.ok t) ∧
    (M.parse_ymd s = none → M.parse_datetime s = none → M.parse_rfc3339 s = none →
        parse_time M s = Except.error "Invalid time format" ∧
        ∀ (base : Cli) (uArg : Option String) (repo : Option (List Commit)),
          runMain M base (some s) uArg repo = Except.error "Invalid time format") := by
  refine ⟨fun d t h1 h2 => ?_, fun t h1 h2 => ?_, fun t h1 h2 h3 => ?_,
    fun h1 h2 h3 => ⟨?_, fun base uArg repo => ?_⟩⟩
  · simp [parse_time, h1, h2]
  · simp [parse_time, h1, h2]
  · simp [parse_time, h1, h2, h3]
  · simp [parse_time, h1, h2, h3]
  · simp [runMain, parseOptTime, parse_time, h1, h2, h3, Except.map]

/-- C8 witness: on the miniature chrono model, each format is accepted
in turn and an unparsable string aborts the run before any repository
data is consulted. -/
theorem parse_time_format_order_witness :
    parse_time chronoTest "2024-01-02" = Except.ok 1704124800 ∧
    parse_time chronoTest "2024-01-02 03:04:05" = Except.ok 1704135845 ∧
    parse_time chronoTest "2024-01-02T03:04:05Z" = Except.ok 1704164645 ∧
    runMain chronoTest defaultCli (some "nonsense") none (some []) =
      Except.error "Invalid time format" := by
  refine ⟨?_, ?_, ?_, ?_⟩
  · exact (parse_time_format_order chronoTest "2024-01-02").1 (2024, 1, 2) 1704124800 rfl rfl
  · exact (parse_time_format_order chronoTest "2024-01-02 03:04:05").2.1 1704135845 rfl rfl
  · exact (parse_time_format_order chronoTest "2024-01-02T03:04:05Z").2.2.1
      1704164645 rfl rfl rfl
  · exact ((parse_time_format_order chronoTest "nonsense").2.2.2 rfl rfl rfl).2
      defaultCli none (some [])

/-- C9: when every visited commit's canonical signature lacks a name,
the empty string is substituted, so all qualifying commits aggregate
under the single key "" — the map never holds more than one entry, its
key is "", and its commit count is the number of qualifying commits. -/
theorem absent_name_empty_key (cli : Cli) (cs : List Commit)
    (hnames : ∀ c ∈ cs, c.name = none) :
    (∀ p ∈ runStats cli cs, p.1 = "") ∧
    (runStats cli cs).length ≤ 1 ∧
    commitsOf (runStats cli cs) "" = (cs.filter (qualifies cli)).length ∧
    (∀ (stats : List (String × User)) (c : Commit), c.name = none → c.email = none →
      qualifies cli c = true → lookupStats stats "" = none →
      lookupStats (stepCommit cli stats c) "" =
        some { email := "", time := c.time, commits := 1
             , added := c.insertions, deleted := c.deletions }) := by
  have hshape : ∀ l : List Commit, (∀ c ∈ l, c.name = none) →
      ∀ stats : List (String × User), (stats = [] ∨ ∃ u, stats = [("", u)]) →
        (List.foldl (stepCommit cli) stats l = [] ∨
          ∃ u, List.foldl (stepCommit cli) stats l = [("", u)]) := by
    intro l
    induction l with
    | nil => intro _ stats hstats; simpa using hstats
    | cons c rest ih =>
      intro hn stats hstats
      rw [List.foldl_cons]
      apply ih (fun x hx => hn x (List.mem_cons_of_mem c hx))
      have hcname : c.name = none := hn c (List.mem_cons_self c rest)
      by_cases ht : timeSkip cli c.time = true
      · simpa [stepCommit, ht] using hstats
      · by_cases hi2 : identitySkip cli (c.name.getD "") = true
        · simpa [stepCommit, ht, hi2] using hstats
        · by_cases hz : (c.insertions == 0 && c.deletions == 0) = true
          · simpa [stepCommit, ht, hi2, hz] using hstats
          · have hstep : stepCommit cli stats c =
                updateStats stats "" (c.email.getD "") c.time c.insertions c.deletions := by
              simp only [hcname, Option.getD_none] at hi2
              simp [stepCommit, ht, hi2, hz, hcname]
            rw [hstep]
            rcases hstats with h | ⟨u, h⟩ <;> subst h
            · exact Or.inr ⟨_, rfl⟩
            · refine Or.inr ⟨{ email := u.email, time := c.time, commits := u.commits + 1
                             , added := u.added + c.insertions
                             , deleted := u.deleted + c.deletions }, ?_⟩
              simp [updateStats]
  have h0 := hshape cs hnames [] (Or.inl rfl)
  unfold runStats
  refine ⟨?_, ?_, ?_, ?_⟩
  · intro p hp
    rcases h0 with h | ⟨u, h⟩
    · rw [h] at hp
      simp at hp
    · rw [h] at hp
      rw [List.mem_singleton] at hp
      subst hp
      rfl
  · rcases h0 with h | ⟨u, h⟩ <;> rw [h] <;> simp
  · have h := (totalsOf_foldl cli "" cs []).1
    rw [h]
    have hfilter : cs.filter (qualName cli "") = cs.filter (qualifies cli) :=
      List.filter_congr (fun c hc => by simp [qualName, hnames c hc])
    unfold countQual
    rw [hfilter]
    simp [commitsOf, lookupStats]
  · intro stats c hcn hce hq hl
    rw [stepCommit_of_qualifies cli stats c hq, hcn, hce]
    simp only [Option.getD_none]
    rw [lookupStats_updateStats_self, hl]

/-- C9 witness: a single nameless qualifying commit lands under the
empty-string key. -/
theorem absent_name_empty_key_witness :
    commitsOf (runStats defaultCli [cNoName]) "" = 1 ∧
    (runStats defaultCli [cNoName]).length ≤ 1 := by
  have h := absent_name_empty_key defaultCli [cNoName] (by decide)
  refine ⟨?_, h.2.1⟩
  rw [h.2.2.1]
  decide

/-- C10: every entry that exists at report time has commits at least 1
and added+deleted at least 1 (entries are created and updated only by
commits that survive the zero-change skip), so the render-time filter
on added = 0 and deleted = 0 removes nothing. -/
theorem report_rows_positive (cli : Cli) (cs : List Commit) :
    (∀ p ∈ runStats cli cs, 1 ≤ p.2.commits ∧ 1 ≤ p.2.added + p.2.deleted) ∧
    renderRows (sortRows cli (runStats cli cs)) = sortRows cli (runStats cli cs) := by
  have hinv : ∀ p ∈ runStats cli cs, 1 ≤ p.2.commits ∧ 1 ≤ p.2.added + p.2.deleted := by
    unfold runStats
    exact inv_foldl cli cs [] (by simp)
  refine ⟨hinv, ?_⟩
  unfold renderRows
  apply List.filter_eq_self.mpr
  intro p hp
  have hp' : p ∈ runStats cli cs := (sortRows_perm cli (runStats cli cs)).mem_iff.mp hp
  have h2 := (hinv p hp').2
  simp only [Bool.not_eq_true', Bool.and_eq_false_iff, beq_eq_false_iff_ne, Ne]
  omega

/-- C10 witness: the single entry produced by one qualifying commit has
positive commits and positive added+deleted. -/
theorem report_rows_positive_witness :
    1 ≤ u0.commits ∧ 1 ≤ u0.added + u0.deleted :=
  (report_rows_positive defaultCli [cIn1]).1 ("a", u0) (by decide)

end GitStats

